import Mathlib

/-
Verification of the flox core specification: factorization of group-by keys
into integer codes, cohort detection, strategy selection, and the reduction
executor driven by declarative aggregation blueprints.

The repository ships the user-story notebooks (climatology.ipynb,
custom-aggregations.ipynb, nD-bins.ipynb); the algorithmic core they call
(flox.core.factorize_, flox.core.find_group_cohorts, flox.Aggregation and the
reduction executor behind flox.xarray.xarray_reduce) is modelled here from the
specification, faithful to its words.  Code that does appear in the notebooks
(the mean Aggregation blueprint, the offset-codes mixed-radix construction,
the grouped-reduction kernel signature) is translated directly.
-/

namespace Flox

/-- Reduction strategies: blockwise, map-reduce, cohorts. -/
inductive Method where
  | blockwise
  | mapReduce
  | cohorts
  deriving DecidableEq, Repr

/-- Modelled from the spec: a strategy requires a combine step unless it is
the blockwise/single-pass path. -/
def requiresCombine : Method → Bool
  | Method.blockwise => false
  | Method.mapReduce => true
  | Method.cohorts => true

/-- Modelled from the spec (data model, chunk layout): split a flat list into
contiguous chunks given the ordered sequence of chunk sizes. -/
def splitChunks : List Nat → List α → List (List α)
  | [], _ => []
  | s :: rest, xs => xs.take s :: splitChunks rest (xs.drop s)

/-- Pairs of (code, value); the members of group g, in positional order.
Sentinel-coded pairs (code -1) belong to no group since g is a natural. -/
def perGroup (g : Nat) (pairs : List (Int × α)) : List α :=
  (pairs.filter (fun p => p.1 == (g : Int))).map Prod.snd

/-- Fold a nonempty member list into one intermediate value: map each element
to its intermediate contribution and merge with the blueprint binary op.
An empty member list yields none (the group is absent from this partial). -/
def foldMapOpt (m : α → I) (op : I → I → I) : List α → Option I
  | [] => none
  | v :: vs => some (vs.foldl (fun acc w => op acc (m w)) (m v))

/-- Merge two optional partial results; a group absent from one side passes
the other side through unchanged. -/
def mergeOpt (op : I → I → I) : Option I → Option I → Option I
  | none, b => b
  | some a, none => some a
  | some a, some b => some (op a b)

/-- Combine a list of optional partials left to right. -/
def combineAll (op : I → I → I) : List (Option I) → Option I
  | [] => none
  | x :: xs => mergeOpt op x (combineAll op xs)

/-- First present partial, with no combining: models the blockwise scatter
where each chunk writes final values for its own groups. -/
def firstSome : List (Option I) → Option I
  | [] => none
  | none :: xs => firstSome xs
  | some a :: _ => some a

section Blueprint

variable {V I R : Type}

/-- Modelled from the spec: the Aggregation Blueprint (flox.Aggregation is
not under src).  chunkMap is the per-element contribution to the tuple of
intermediate quantities; op is the per-slot binary operation the named chunk
and combine ops reduce with; hasCombine records whether combine_ops is
defined (false for non-parallelizable custom blueprints such as the median
of custom-aggregations.ipynb, built with chunk=None, combine=None);
finalize converts combined intermediates into the user-visible value;
fillInterm holds the per-slot intermediate fill values of the blueprint. -/
structure Agg (V I R : Type) where
  chunkMap : V → I
  op : I → I → I
  hasCombine : Bool
  finalize : I → R
  fillInterm : I

/-- Modelled from the spec (fill semantics): groups with a present combined
intermediate are finalized; groups with none receive the caller fill value
post-finalize. -/
def finalizeOpt (fin : I → R) (fv : R) : Option I → R
  | none => fv
  | some i => fin i

/-- Per-chunk partial results for group g: the chunk-local op applied to the
members of g inside each chunk, in chunk order. -/
def chunkInterms (agg : Agg V I R) (chunks : List Nat)
    (pairs : List (Int × V)) (g : Nat) : List (Option I) :=
  (splitChunks chunks pairs).map
    (fun ch => foldMapOpt agg.chunkMap agg.op (perGroup g ch))

/-- Modelled from the spec (Reduction Executor): the combined intermediate
for group g under each strategy.  Map-reduce combines the partials of every
chunk; blockwise scatters the finalized partial of each chunk with no combine
step; cohorts restricts to the member chunks of the cohort of g (the chunks
where g occurs, shared by every member of its cohort) and combines those. -/
def strategyCombined (m : Method) (agg : Agg V I R) (chunks : List Nat)
    (pairs : List (Int × V)) (g : Nat) : Option I :=
  match m with
  | Method.mapReduce => combineAll agg.op (chunkInterms agg chunks pairs g)
  | Method.blockwise => firstSome (chunkInterms agg chunks pairs g)
  | Method.cohorts =>
      combineAll agg.op
        (((splitChunks chunks pairs).filter
            (fun ch => ch.any (fun p => p.1 == (g : Int)))).map
          (fun ch => foldMapOpt agg.chunkMap agg.op (perGroup g ch)))

/-- Modelled from the spec (Reduction Executor contract): execute applies the
blueprint under the selected strategy over the chunked data and produces one
finalized value per group code 0..G-1, failing fast with a configuration
error when the strategy requires a combine step and the blueprint defines
none. -/
def execute (m : Method) (agg : Agg V I R) (chunks : List Nat)
    (codes : List Int) (data : List V) (G : Nat) (fv : R) :
    Except String (List R) :=
  if requiresCombine m && !agg.hasCombine then
    Except.error "configuration error: strategy requires combine_ops but the blueprint defines none"
  else
    Except.ok ((List.range G).map
      (fun g =>
        finalizeOpt agg.finalize fv
          (strategyCombined m agg chunks (codes.zip data) g)))

/-- Canonical group reduction: fold the blueprint op over all members of g in
the undivided data, then finalize (fill value for empty groups). -/
def canonicalResult (agg : Agg V I R) (codes : List Int) (data : List V)
    (G : Nat) (fv : R) : List R :=
  (List.range G).map
    (fun g =>
      finalizeOpt agg.finalize fv
        (foldMapOpt agg.chunkMap agg.op (perGroup g (codes.zip data))))

/-- Modelled from the spec (Cohort Planner blockwise condition, executor
side): the blockwise strategy is feasible when every group with members
appears in exactly one chunk, so no combine is ever needed. -/
def blockwiseOK (chunks : List Nat) (pairs : List (Int × V)) (G : Nat) :
    Prop :=
  ∀ g < G,
    ((splitChunks chunks pairs).countP
        (fun ch => ch.any (fun p => p.1 == (g : Int)))) ≤ 1

/-- Feasibility of a strategy for a layout: blockwise needs the blockwise
condition; map-reduce and cohorts are always layout-feasible. -/
def feasibleFor (m : Method) (chunks : List Nat) (pairs : List (Int × V))
    (G : Nat) : Prop :=
  m = Method.blockwise → blockwiseOK chunks pairs G

/-- Translated from custom-aggregations.ipynb (the mean Aggregation): chunk
ops (sum, nanlen) with intermediate fill values (0, 0), combine ops
(sum, sum), finalize sum_ / count.  Each element contributes (v, 1) to the
(sum, count) pair; the shared slotwise op adds both slots. -/
def meanAgg : Agg ℚ (ℚ × ℚ) ℚ :=
  ⟨fun v => (v, 1),
   fun a b => (a.1 + b.1, a.2 + b.2),
   true,
   fun p => p.1 / p.2,
   (0, 0)⟩

/-- Modelled from the spec (Factorizer): expected group count inferred from
integer labels, the smallest G with every non-sentinel label below G. -/
def maxGroup (labels : List Int) : Nat :=
  labels.foldl (fun acc c => max acc (c + 1).toNat) 0

/-- Modelled from the spec (Cohort Planner step 2): the group-membership set
of g, the ordered chunk indices whose chunk contains code g. -/
def memberChunks (g : Nat) (labels : List Int) (chunks : List Nat) :
    List Nat :=
  (List.range chunks.length).filter
    (fun c => ((splitChunks chunks labels).getD c []).contains ((g : Int)))

/-- Group codes that occur at least once in the labels, in code order. -/
def occurringGroups (labels : List Int) : List Nat :=
  (List.range (maxGroup labels)).filter (fun g => labels.contains ((g : Int)))

/-- Modelled from the spec (Cohort Planner step 3): the distinct
chunk-membership signatures of the occurring groups. -/
def cohortSignatures (labels : List Int) (chunks : List Nat) :
    List (List Nat) :=
  ((occurringGroups labels).map (fun g => memberChunks g labels chunks)).dedup

/-- Modelled from the spec (Cohort Planner blockwise condition): every cohort
maps to exactly one chunk (each occurring group appears in exactly one chunk)
and every chunk maps to exactly one cohort (each chunk holds at least one
non-sentinel code). -/
def blockwiseCond (labels : List Int) (chunks : List Nat) : Bool :=
  ((occurringGroups labels).all
      (fun g => (memberChunks g labels chunks).length == 1))
    && ((splitChunks chunks labels).all
      (fun ch => ch.any (fun c => decide (0 ≤ c))))

/-- Cohorts cost proxy: cohort_count * avg_chunks_per_cohort, which is the
total number of chunk slots over all cohorts. -/
def totalCohortChunks (labels : List Int) (chunks : List Nat) : Nat :=
  ((cohortSignatures labels chunks).map List.length).sum

/-- Map-reduce cost proxy: chunk_count * group_count. -/
def mapReduceCost (labels : List Int) (chunks : List Nat) : Nat :=
  chunks.length * maxGroup labels

/-- Modelled from the spec: flox.core.find_group_cohorts (not under src).
Clusters the occurring groups by identical chunk-membership signature into an
ordered sequence of cohorts, each carrying its required chunk indices and its
member group codes, and derives the preferred strategy tag. -/
def findGroupCohorts (labels : List Int) (chunks : List Nat) :
    Method × List (List Nat × List Nat) :=
  (if blockwiseCond labels chunks then Method.blockwise
    else if totalCohortChunks labels chunks ≤ mapReduceCost labels chunks
      then Method.cohorts
      else Method.mapReduce,
   (cohortSignatures labels chunks).map
     (fun s =>
       (s, (occurringGroups labels).filter
         (fun g => memberChunks g labels chunks == s))))

/-- Modelled from the spec (Strategy Selector heuristic): prefer blockwise
when feasible; else compare the cohorts cost proxy against the map-reduce
cost proxy and pick the cheaper, ties going to cohorts. -/
def heuristicChoice (bw : Bool) (cohortCost mrCost : Nat) : Method :=
  if bw then Method.blockwise
  else if cohortCost ≤ mrCost then Method.cohorts
  else Method.mapReduce

/-- Modelled from the spec (Strategy Selector): honor an explicit method
after validating feasibility (blockwise needs the blockwise condition), else
apply the cost heuristic on the computed cost proxies. -/
def selectMethod (userMethod : Option Method) (labels : List Int)
    (chunks : List Nat) : Except String Method :=
  match userMethod with
  | some m =>
      if m == Method.blockwise && !blockwiseCond labels chunks then
        Except.error "configuration error: blockwise requested but infeasible"
      else
        Except.ok m
  | none =>
      Except.ok
        (heuristicChoice (blockwiseCond labels chunks)
          (totalCohortChunks labels chunks) (mapReduceCost labels chunks))

/-- Index of the first matching entry of the expected-groups enumeration
(explicit labels or bin membership, each entry a membership test). -/
def firstMatch {α : Type} (v : α) : List (α → Bool) → Option Nat
  | [] => none
  | p :: ps => if p v then some 0 else (firstMatch v ps).map (· + 1)

/-- Modelled from the spec: flox.core.factorize_ with expected_groups (called
by the notebooks, not under src).  Codes are assigned by position in the
enumeration; values matching no entry get the sentinel code -1. -/
def factorizeCodes (preds : List (α → Bool)) (values : List α) : List Int :=
  values.map
    (fun v =>
      match firstMatch v preds with
      | some k => (k : Int)
      | none => -1)

/-- Modelled from the spec: the nan mask returned by factorize, true exactly
for values matching no entry of the enumeration. -/
def nanMask (preds : List (α → Bool)) (values : List α) : List Bool :=
  values.map (fun v => (firstMatch v preds).isNone)

/-- Positions whose code is the group g. -/
def memberPositions (g : Nat) (codes : List Int) : List Nat :=
  (List.range codes.length).filter
    (fun i => codes.getD i (-1) == (g : Int))

/-- Modelled from the spec (Primitive Reduction Kernel interface) with the
required signature from custom-aggregations.ipynb: apply(op, codes, values,
group_count, fill_value) returns one value per group code, an array of
exactly group_count entries, using fill_value for groups with no members. -/
def groupedReduce (op : List V → V) (codes : List Int) (values : List V)
    (size : Nat) (fv : V) : List V :=
  (List.range size).map
    (fun g =>
      let mem := perGroup g (codes.zip values)
      if mem.isEmpty then fv else op mem)

/-- Modelled from the spec (Factorizer, multiple keys): row-major mixed-radix
combination of per-key codes, combined = sum of code_k * stride_k with
stride_k the product of the group counts of keys k+1..end. -/
def mixedRadixEncode : List Nat → List Nat → Nat
  | [], _ => 0
  | _, [] => 0
  | c :: cs, _n :: ns => c * ns.prod + mixedRadixEncode cs ns

/-- Decoding a combined code by the mixed-radix strides. -/
def mixedRadixDecode : Nat → List Nat → List Nat
  | _, [] => []
  | x, _n :: ns => x / ns.prod :: mixedRadixDecode (x % ns.prod) ns

/-- Translated from nD-bins.ipynb (Offset the codes): per time step t the
codes are shifted by t * (N - 1), where N - 1 is the number of bins of one
step, and the sentinel -1 is restored where the input was sentinel. -/
def offsetCodes (N : Nat) (codesByTime : List (List Int)) :
    List (List Int) :=
  codesByTime.enum.map
    (fun p =>
      p.2.map
        (fun c => if c == (-1 : Int) then -1 else c + p.1 * ((N : Int) - 1)))

-- Theorems.

/-- Concatenating the chunks recovers the prefix of length equal to the sum of
the chunk sizes. -/
theorem splitChunks_join (chunks : List Nat) (xs : List α) :
    (splitChunks chunks xs).flatten = xs.take chunks.sum := by
  induction chunks generalizing xs with
  | nil => simp [splitChunks]
  | cons s rest ih =>
      simp only [splitChunks, List.flatten_cons, List.sum_cons, ih,
        List.take_add]

/-- Every chunk produced by splitChunks is a sublist of the input. -/
theorem splitChunks_sublist (chunks : List Nat) (xs : List α) :
    ∀ ch ∈ splitChunks chunks xs, ch.Sublist xs := by
  induction chunks generalizing xs with
  | nil => intro ch h; simp [splitChunks] at h
  | cons s rest ih =>
      intro ch h
      simp only [splitChunks, List.mem_cons] at h
      rcases h with h | h
      · subst h; exact List.take_sublist s xs
      · exact (ih (xs.drop s) ch h).trans (List.drop_sublist s xs)

theorem perGroup_append (g : Nat) (xs ys : List (Int × α)) :
    perGroup g (xs ++ ys) = perGroup g xs ++ perGroup g ys := by
  simp [perGroup, List.filter_append]

theorem perGroup_sublist {g : Nat} {xs ys : List (Int × α)}
    (h : xs.Sublist ys) (hy : perGroup g ys = []) : perGroup g xs = [] := by
  unfold perGroup at *
  have hy2 : ys.filter (fun p => p.1 == (g : Int)) = [] :=
    List.map_eq_nil_iff.mp hy
  have hsub : (xs.filter (fun p => p.1 == (g : Int))).Sublist
      (ys.filter (fun p => p.1 == (g : Int))) := List.Sublist.filter _ h
  rw [hy2] at hsub
  simp [List.sublist_nil.mp hsub]

theorem mergeOpt_none_right (op : I → I → I) (a : Option I) :
    mergeOpt op a none = a := by
  cases a <;> rfl

theorem foldl_op_assoc {op : I → I → I}
    (hassoc : ∀ a b c, op (op a b) c = op a (op b c)) (m : α → I) :
    ∀ (vs : List α) (a b : I),
      vs.foldl (fun acc w => op acc (m w)) (op a b) =
        op a (vs.foldl (fun acc w => op acc (m w)) b) := by
  intro vs
  induction vs with
  | nil => intro a b; rfl
  | cons v vs ih =>
      intro a b
      simp only [List.foldl_cons]
      rw [hassoc, ih]

/-- Associativity lets the nonempty fold distribute over concatenation. -/
theorem foldMapOpt_append {op : I → I → I}
    (hassoc : ∀ a b c, op (op a b) c = op a (op b c)) (m : α → I)
    (xs ys : List α) :
    foldMapOpt m op (xs ++ ys) =
      mergeOpt op (foldMapOpt m op xs) (foldMapOpt m op ys) := by
  cases xs with
  | nil => simp [foldMapOpt, mergeOpt]
  | cons x xs =>
      cases ys with
      | nil => simp [foldMapOpt, mergeOpt]
      | cons y ys =>
          simp only [List.cons_append, foldMapOpt, List.foldl_append,
            mergeOpt, List.foldl_cons]
          rw [← foldl_op_assoc hassoc m ys _ (m y)]

theorem mergeOpt_assoc {op : I → I → I}
    (hassoc : ∀ a b c, op (op a b) c = op a (op b c)) (a b c : Option I) :
    mergeOpt op (mergeOpt op a b) c = mergeOpt op a (mergeOpt op b c) := by
  cases a <;> cases b <;> cases c <;> simp [mergeOpt, hassoc]

theorem combineAll_append {op : I → I → I}
    (hassoc : ∀ a b c, op (op a b) c = op a (op b c))
    (l1 l2 : List (Option I)) :
    combineAll op (l1 ++ l2) =
      mergeOpt op (combineAll op l1) (combineAll op l2) := by
  induction l1 with
  | nil => simp [combineAll, mergeOpt]
  | cons x l1 ih =>
      have hstep : combineAll op ((x :: l1) ++ l2) =
          mergeOpt op x (combineAll op (l1 ++ l2)) := rfl
      rw [hstep, ih]
      have hstep2 : combineAll op (x :: l1) =
          mergeOpt op x (combineAll op l1) := rfl
      rw [hstep2, mergeOpt_assoc hassoc]

/-- Dropping entries that are none does not change the combined value. -/
theorem combineAll_filter (op : I → I → I) (p : β → Bool) (f : β → Option I)
    (l : List β) (h : ∀ c ∈ l, p c = false → f c = none) :
    combineAll op ((l.filter p).map f) = combineAll op (l.map f) := by
  induction l with
  | nil => rfl
  | cons c l ih =>
      have ihl := ih (fun x hx hpx => h x (List.mem_cons_of_mem c hx) hpx)
      cases hp : p c with
      | true => simp [List.filter_cons, hp, combineAll, ihl]
      | false =>
          have hn : f c = none := h c (List.mem_cons_self c l) hp
          simp [List.filter_cons, hp, combineAll, hn, mergeOpt, ihl]

/-- One present entry at most makes the blockwise scatter agree with the
combine fold. -/
theorem firstSome_eq_combineAll {op : I → I → I} (l : List (Option I))
    (h : (l.countP Option.isSome) ≤ 1) :
    firstSome l = combineAll op l := by
  induction l with
  | nil => rfl
  | cons x l ih =>
      cases x with
      | none =>
          have hle : (l.countP Option.isSome) ≤ 1 := by
            simpa [List.countP_cons] using h
          simp [firstSome, combineAll, mergeOpt, ih hle]
      | some a =>
          have hz : (l.countP Option.isSome) = 0 := by
            simp only [List.countP_cons, Option.isSome_some, if_pos] at h
            omega
          have hall : combineAll op l = none := by
            clear ih h
            induction l with
            | nil => rfl
            | cons y l ihy =>
                cases y with
                | none =>
                    simp only [List.countP_cons, Option.isSome_none,
                      Bool.false_eq_true, if_neg, Nat.add_zero] at hz
                    simp only [combineAll, mergeOpt]
                    exact ihy hz
                | some b => simp [List.countP_cons] at hz
          simp [firstSome, combineAll, hall, mergeOpt]


theorem perGroup_eq_nil_iff (g : Nat) (ch : List (Int × V)) :
    perGroup g ch = [] ↔ ch.any (fun p => p.1 == (g : Int)) = false := by
  constructor
  · intro h
    have hf : ch.filter (fun p => p.1 == (g : Int)) = [] :=
      List.map_eq_nil_iff.mp h
    rw [List.any_eq_false]
    intro p hp
    intro hpg
    have : p ∈ ch.filter (fun p => p.1 == (g : Int)) :=
      List.mem_filter.mpr ⟨hp, hpg⟩
    simp [hf] at this
  · intro h
    unfold perGroup
    rw [List.any_eq_false] at h
    have hf : ch.filter (fun p => p.1 == (g : Int)) = [] := by
      rw [List.filter_eq_nil_iff]
      intro p hp
      exact fun hpg => h p hp hpg
    simp [hf]

theorem isSome_foldMapOpt (m : V → I) (op : I → I → I) (vs : List V) :
    (foldMapOpt m op vs).isSome = !vs.isEmpty := by
  cases vs <;> rfl

/-- Combining the per-chunk partials of group g is the canonical fold over
the concatenation of the chunks, when the op is associative. -/
theorem combineAll_interms {op : I → I → I}
    (hassoc : ∀ a b c, op (op a b) c = op a (op b c)) (m : V → I) (g : Nat) :
    ∀ parts : List (List (Int × V)),
      combineAll op (parts.map (fun ch => foldMapOpt m op (perGroup g ch))) =
        foldMapOpt m op (perGroup g parts.flatten) := by
  intro parts
  induction parts with
  | nil => rfl
  | cons ch rest ih =>
      have hstep :
          combineAll op ((ch :: rest).map
              (fun c => foldMapOpt m op (perGroup g c))) =
            mergeOpt op (foldMapOpt m op (perGroup g ch))
              (combineAll op (rest.map
                (fun c => foldMapOpt m op (perGroup g c)))) := rfl
      rw [hstep, ih, List.flatten_cons, perGroup_append,
        foldMapOpt_append hassoc]

/-- The combined intermediate of each strategy for group g equals the canonical
fold over all of the members of g, for associative ops, for any chunk layout
covering the data, and for blockwise when the blockwise condition holds. -/
theorem strategyCombined_eq_canonical (m : Method) (agg : Agg V I R)
    (hassoc : ∀ a b c, agg.op (agg.op a b) c = agg.op a (agg.op b c))
    (chunks : List Nat) (pairs : List (Int × V)) (g : Nat) (G : Nat)
    (hsum : chunks.sum = pairs.length)
    (hfeas : feasibleFor m chunks pairs G) (hg : g < G) :
    strategyCombined m agg chunks pairs g =
      foldMapOpt agg.chunkMap agg.op (perGroup g pairs) := by
  have hmr :
      combineAll agg.op (chunkInterms agg chunks pairs g) =
        foldMapOpt agg.chunkMap agg.op (perGroup g pairs) := by
    unfold chunkInterms
    rw [combineAll_interms hassoc, splitChunks_join, hsum,
      List.take_length]
  cases m with
  | mapReduce => exact hmr
  | blockwise =>
      have hcount :
          ((chunkInterms agg chunks pairs g).countP Option.isSome) ≤ 1 := by
        unfold chunkInterms
        rw [List.countP_map]
        have hag := hfeas rfl g hg
        have heq :
            (splitChunks chunks pairs).countP
                (Option.isSome ∘ fun ch =>
                  foldMapOpt agg.chunkMap agg.op (perGroup g ch)) =
              (splitChunks chunks pairs).countP
                (fun ch => ch.any (fun p => p.1 == (g : Int))) := by
          apply List.countP_congr
          intro ch _
          simp only [Function.comp_apply, isSome_foldMapOpt]
          constructor
          · intro hs
            rcases hany : ch.any (fun p => p.1 == (g : Int)) with _ | _
            · have := (perGroup_eq_nil_iff g ch).mpr hany
              simp [this, List.isEmpty_nil] at hs
            · rfl
          · intro hany
            rcases hq : perGroup g ch with _ | ⟨a, rest⟩
            · have := (perGroup_eq_nil_iff g ch).mp hq
              rw [this] at hany
              cases hany
            · simp [hq]
        rw [heq]
        exact hag
      exact (firstSome_eq_combineAll _ hcount).trans hmr
  | cohorts =>
      have hfilt := combineAll_filter agg.op
        (fun ch : List (Int × V) => ch.any (fun p => p.1 == (g : Int)))
        (fun ch => foldMapOpt agg.chunkMap agg.op (perGroup g ch))
        (splitChunks chunks pairs)
        (by
          intro ch _ hp
          have : perGroup g ch = [] := (perGroup_eq_nil_iff g ch).mpr hp
          simp [this, foldMapOpt])
      exact hfilt.trans hmr

/-- Execute agrees with the canonical per-group reduction whenever the
blueprint has a combine step (or the strategy is blockwise) and the layout
covers the data, with the blockwise condition when blockwise is selected. -/
theorem execute_eq_canonical (m : Method) (agg : Agg V I R)
    (hassoc : ∀ a b c, agg.op (agg.op a b) c = agg.op a (agg.op b c))
    (chunks : List Nat) (codes : List Int) (data : List V) (G : Nat) (fv : R)
    (hcomb : requiresCombine m = true → agg.hasCombine = true)
    (hlen : codes.length = data.length)
    (hsum : chunks.sum = codes.length)
    (hfeas : feasibleFor m chunks (codes.zip data) G) :
    execute m agg chunks codes data G fv =
      Except.ok (canonicalResult agg codes data G fv) := by
  have hguard : (requiresCombine m && !agg.hasCombine) = false := by
    rcases hr : requiresCombine m with _ | _
    · simp
    · simp [hcomb hr]
  unfold execute
  rw [hguard]
  rw [if_neg (by simp)]
  unfold canonicalResult
  congr 1
  apply List.map_congr_left
  intro g hgmem
  have hg : g < G := List.mem_range.mp hgmem
  have hzlen : (codes.zip data).length = codes.length := by
    rw [List.length_zip, hlen, Nat.min_self]
  rw [strategyCombined_eq_canonical m agg hassoc chunks (codes.zip data) g G
    (by rw [hzlen]; exact hsum) hfeas hg]

theorem combineAll_all_none {op : I → I → I} (l : List (Option I))
    (h : ∀ x ∈ l, x = none) : combineAll op l = none := by
  induction l with
  | nil => rfl
  | cons x l ih =>
      have hx := h x (List.mem_cons_self x l)
      subst hx
      have hstep : combineAll op (none :: l) =
          mergeOpt op none (combineAll op l) := rfl
      rw [hstep, ih (fun y hy => h y (List.mem_cons_of_mem _ hy))]
      rfl

theorem firstSome_all_none (l : List (Option I))
    (h : ∀ x ∈ l, x = none) : firstSome l = (none : Option I) := by
  induction l with
  | nil => rfl
  | cons x l ih =>
      have hx := h x (List.mem_cons_self x l)
      subst hx
      exact ih (fun y hy => h y (List.mem_cons_of_mem _ hy))

/-- A group with no members in the data has no combined intermediate under
any strategy. -/
theorem strategyCombined_empty (m : Method) (agg : Agg V I R)
    (chunks : List Nat) (pairs : List (Int × V)) (g : Nat)
    (hempty : perGroup g pairs = []) :
    strategyCombined m agg chunks pairs g = none := by
  have hch : ∀ ch ∈ splitChunks chunks pairs, perGroup g ch = [] :=
    fun ch hm => perGroup_sublist (splitChunks_sublist chunks pairs ch hm)
      hempty
  have hnone : ∀ ch ∈ splitChunks chunks pairs,
      foldMapOpt agg.chunkMap agg.op (perGroup g ch) = (none : Option I) := by
    intro ch hm
    rw [hch ch hm]
    rfl
  cases m with
  | mapReduce =>
      apply combineAll_all_none
      intro x hx
      rcases List.mem_map.mp hx with ⟨ch, hm, hev⟩
      rw [← hev]
      exact hnone ch hm
  | blockwise =>
      apply firstSome_all_none
      intro x hx
      rcases List.mem_map.mp hx with ⟨ch, hm, hev⟩
      rw [← hev]
      exact hnone ch hm
  | cohorts =>
      apply combineAll_all_none
      intro x hx
      rcases List.mem_map.mp hx with ⟨ch, hm, hev⟩
      rw [← hev]
      exact hnone ch (List.mem_of_mem_filter hm)

theorem execute_ok_elim (m : Method) (agg : Agg V I R) (chunks : List Nat)
    (codes : List Int) (data : List V) (G : Nat) (fv : R) (res : List R)
    (hres : execute m agg chunks codes data G fv = Except.ok res) :
    res = (List.range G).map
      (fun g =>
        finalizeOpt agg.finalize fv
          (strategyCombined m agg chunks (codes.zip data) g)) := by
  unfold execute at hres
  by_cases hguard : (requiresCombine m && !agg.hasCombine) = true
  · rw [if_pos hguard] at hres
    cases hres
  · rw [if_neg hguard] at hres
    exact (Except.ok.inj hres).symm

theorem execute_ok_get_empty (m : Method) (agg : Agg V I R)
    (chunks : List Nat) (codes : List Int) (data : List V) (G : Nat) (fv : R)
    (g : Nat) (hg : g < G) (hempty : perGroup g (codes.zip data) = [])
    (res : List R)
    (hres : execute m agg chunks codes data G fv = Except.ok res) :
    res[g]? = some fv := by
  rw [execute_ok_elim m agg chunks codes data G fv res hres]
  rw [List.getElem?_map, List.getElem?_range hg]
  have hsp := strategyCombined_empty m agg chunks (codes.zip data) g hempty
  simp [hsp, finalizeOpt]

/-- C1: For every aggregation blueprint whose combine ops are associative and
commutative, and for every data array and codes array, the finalized
per-group result of execute is the same (exactly) for every chunk layout and
for every strategy among blockwise, map-reduce and cohorts that is feasible
for that layout. -/
theorem claim_chunk_invariance (agg : Agg V I R)
    (hcombine : agg.hasCombine = true)
    (hassoc : ∀ a b c, agg.op (agg.op a b) c = agg.op a (agg.op b c))
    (hcomm : ∀ a b, agg.op a b = agg.op b a)
    (codes : List Int) (data : List V) (hlen : codes.length = data.length)
    (G : Nat) (fv : R) (chunks1 chunks2 : List Nat)
    (hsum1 : chunks1.sum = codes.length) (hsum2 : chunks2.sum = codes.length)
    (m1 m2 : Method)
    (hf1 : feasibleFor m1 chunks1 (codes.zip data) G)
    (hf2 : feasibleFor m2 chunks2 (codes.zip data) G) :
    execute m1 agg chunks1 codes data G fv =
      execute m2 agg chunks2 codes data G fv := by
  rw [execute_eq_canonical m1 agg hassoc chunks1 codes data G fv
      (fun _ => hcombine) hlen hsum1 hf1,
    execute_eq_canonical m2 agg hassoc chunks2 codes data G fv
      (fun _ => hcombine) hlen hsum2 hf2]

/-- Witness for C1: sum blueprint over the data [10, 20, 30] with codes
[0, 0, 1]; blockwise on layout [2, 1] (feasible: one group per chunk) agrees
with map-reduce on the single-chunk layout [3]. -/
theorem claim_chunk_invariance_witness :
    execute Method.blockwise (⟨id, (· + ·), true, id, 0⟩ : Agg Int Int Int)
        [2, 1] [0, 0, 1] [10, 20, 30] 2 (-7) =
      execute Method.mapReduce (⟨id, (· + ·), true, id, 0⟩ : Agg Int Int Int)
        [3] [0, 0, 1] [10, 20, 30] 2 (-7) :=
  claim_chunk_invariance ⟨id, (· + ·), true, id, 0⟩ rfl
    (fun a b c => Int.add_assoc a b c) (fun a b => Int.add_comm a b)
    [0, 0, 1] [10, 20, 30] rfl 2 (-7) [2, 1] [3] rfl rfl
    Method.blockwise Method.mapReduce
    (by intro _; unfold blockwiseOK; decide)
    (by intro h; exact absurd h (by decide))

/-- C5: For every blueprint and every strategy, a group code with zero
contributing elements in the data receives exactly fill_value in the final
result, and the fill is applied after finalize: the result at that group is
fill_value for every finalize function, so finalize is never invoked on a
synthesized missing input for that group. -/
theorem claim_fill_value_correctness (m : Method) (agg : Agg V I R)
    (chunks : List Nat) (codes : List Int) (data : List V) (G : Nat) (fv : R)
    (g : Nat) (res : List R)
    (hres : execute m agg chunks codes data G fv = Except.ok res)
    (hg : g < G) (hempty : perGroup g (codes.zip data) = []) :
    res[g]? = some fv ∧
      ∀ (fin2 : I → R) (res2 : List R),
        execute m ⟨agg.chunkMap, agg.op, agg.hasCombine, fin2, agg.fillInterm⟩
            chunks codes data G fv = Except.ok res2 →
        res2[g]? = some fv := by
  constructor
  · exact execute_ok_get_empty m agg chunks codes data G fv g hg hempty res
      hres
  · intro fin2 res2 hres2
    exact execute_ok_get_empty m
      ⟨agg.chunkMap, agg.op, agg.hasCombine, fin2, agg.fillInterm⟩
      chunks codes data G fv g hg hempty res2 hres2

/-- Witness for C5: with the sum blueprint, codes [0, -1], data [5, 6] and
fill value -7, group 1 has no members and the final result at position 1 is
exactly -7. -/
theorem claim_fill_value_correctness_witness :
    ([5, -7] : List Int)[1]? = some (-7) ∧
      ∀ (fin2 : Int → Int) (res2 : List Int),
        execute Method.mapReduce
            ⟨id, (· + ·), true, fin2, (0 : Int)⟩
            [2] [0, -1] [5, 6] 2 (-7) = Except.ok res2 →
        res2[1]? = some (-7) :=
  claim_fill_value_correctness Method.mapReduce
    (⟨id, (· + ·), true, id, 0⟩ : Agg Int Int Int)
    [2] [0, -1] [5, 6] 2 (-7) 1 [5, -7] rfl (by decide) rfl

/-- C6: An aggregation blueprint that defines chunk ops but no combine ops is
legal only for the blockwise path: for a cohorts or map-reduce request the
executor fails fast with a configuration error, before any partition work:
the error is produced uniformly, independent of the chunk layout, the codes
and the data. -/
theorem claim_missing_combine_fails_fast (agg : Agg V I R) (m : Method)
    (hnoc : agg.hasCombine = false) (hreq : requiresCombine m = true)
    (chunks chunks2 : List Nat) (codes codes2 : List Int)
    (data data2 : List V) (G : Nat) (fv : R) :
    execute m agg chunks codes data G fv =
        Except.error "configuration error: strategy requires combine_ops but the blueprint defines none" ∧
      execute m agg chunks codes data G fv =
        execute m agg chunks2 codes2 data2 G fv := by
  have herr : ∀ (cs : List Nat) (cd : List Int) (dt : List V),
      execute m agg cs cd dt G fv =
        Except.error "configuration error: strategy requires combine_ops but the blueprint defines none" := by
    intro cs cd dt
    unfold execute
    rw [hreq, hnoc]
    rfl
  exact ⟨herr chunks codes data,
    (herr chunks codes data).trans (herr chunks2 codes2 data2).symm⟩

/-- Witness for C6: a median-like blueprint built with chunk present but
combine=None (as agg_median in custom-aggregations.ipynb) is rejected with a
configuration error when the cohorts strategy is requested. -/
theorem claim_missing_combine_fails_fast_witness :
    execute Method.cohorts
        (⟨id, fun a _ => a, false, id, (-1 : Int)⟩ : Agg Int Int Int)
        [2] [0, 0] [1, 2] 1 0 =
        Except.error "configuration error: strategy requires combine_ops but the blueprint defines none" ∧
      execute Method.cohorts
          (⟨id, fun a _ => a, false, id, (-1 : Int)⟩ : Agg Int Int Int)
          [2] [0, 0] [1, 2] 1 0 =
        execute Method.cohorts
          (⟨id, fun a _ => a, false, id, (-1 : Int)⟩ : Agg Int Int Int)
          [1, 1] [1, -1] [3, 4] 1 0 :=
  claim_missing_combine_fails_fast
    (⟨id, fun a _ => a, false, id, (-1 : Int)⟩ : Agg Int Int Int)
    Method.cohorts rfl rfl [2] [1, 1] [0, 0] [1, -1] [1, 2] [3, 4] 1 0

theorem mean_foldl (rest : List ℚ) :
    ∀ s c : ℚ,
      rest.foldl (fun acc w => (acc.1 + w, acc.2 + 1)) (s, c) =
        (s + rest.sum, c + rest.length) := by
  induction rest with
  | nil => intro s c; simp
  | cons w rest ih =>
      intro s c
      simp only [List.foldl_cons, List.sum_cons, List.length_cons, ih]
      simp only [Prod.mk.injEq]
      constructor
      · ring
      · push_cast
        ring

/-- The chunk and combine stages of the mean blueprint compute exactly the running
(sum, count) pair over the members of a group. -/
theorem foldMapOpt_mean (vs : List ℚ) (hvs : vs ≠ []) :
    foldMapOpt meanAgg.chunkMap meanAgg.op vs =
      some (vs.sum, (vs.length : ℚ)) := by
  cases vs with
  | nil => exact absurd rfl hvs
  | cons v rest =>
      show some (rest.foldl (fun acc w => (acc.1 + w, acc.2 + 1)) (v, 1)) = _
      rw [mean_foldl rest v 1]
      simp only [List.sum_cons, List.length_cons, Option.some.injEq,
        Prod.mk.injEq]
      constructor
      · ring
      · push_cast
        ring

/-- C4: For the built-in mean blueprint, whose chunk ops produce (sum_,
count) with fill values (0, 0) and whose combine ops sum both slots,
finalize(sum_, count) equals sum_ / count whenever count > 0; a group with
some members receives the sum of its members divided by their count, and a
group with count = 0 (no contributing elements) yields exactly the
caller fill value. -/
theorem claim_mean_decomposition :
    (∀ s c : ℚ, 0 < c → meanAgg.finalize (s, c) = s / c) ∧
    meanAgg.fillInterm = (0, 0) ∧
    (∀ (m : Method) (chunks : List Nat) (codes : List Int) (data : List ℚ)
        (G : Nat) (fv : ℚ) (g : Nat) (res : List ℚ),
      execute m meanAgg chunks codes data G fv = Except.ok res →
      g < G →
      perGroup g (codes.zip data) = [] →
      res[g]? = some fv) ∧
    (∀ (chunks : List Nat) (codes : List Int) (data : List ℚ) (G : Nat)
        (fv : ℚ) (g : Nat) (res : List ℚ),
      codes.length = data.length →
      chunks.sum = codes.length →
      execute Method.mapReduce meanAgg chunks codes data G fv =
        Except.ok res →
      g < G →
      perGroup g (codes.zip data) ≠ [] →
      res[g]? =
        some ((perGroup g (codes.zip data)).sum /
          ((perGroup g (codes.zip data)).length : ℚ))) := by
  refine ⟨fun s c _ => rfl, rfl, ?_, ?_⟩
  · intro m chunks codes data G fv g res hres hg hempty
    exact execute_ok_get_empty m meanAgg chunks codes data G fv g hg hempty
      res hres
  · intro chunks codes data G fv g res hlen hsum hres hg hne
    have hcan := execute_eq_canonical Method.mapReduce meanAgg
      (by
        intro a b c
        simp only [meanAgg, Prod.mk.injEq]
        constructor <;> ring)
      chunks codes data G fv (fun _ => rfl) hlen hsum
      (fun h => nomatch h)
    rw [hcan] at hres
    have hres2 := Except.ok.inj hres
    subst hres2
    unfold canonicalResult
    rw [List.getElem?_map, List.getElem?_range hg]
    simp only [Option.map_some']
    rw [foldMapOpt_mean (perGroup g (codes.zip data)) hne]
    rfl

/-- Witness for C4: finalize (3, 2) = 3 / 2; with codes [0, 0, -1] and data
[2, 4, 9], group 0 gets (2 + 4) / 2 and the empty group 1 gets the caller
fill value 5. -/
theorem claim_mean_decomposition_witness :
    meanAgg.finalize (3, 2) = (3 : ℚ) / 2 ∧
      (canonicalResult meanAgg [0, 0, -1] [(2 : ℚ), 4, 9] 2 5)[1]? =
        some 5 ∧
      (canonicalResult meanAgg [0, 0, -1] [(2 : ℚ), 4, 9] 2 5)[0]? =
        some ((perGroup 0 ([(0 : Int), 0, -1].zip [(2 : ℚ), 4, 9])).sum /
          ((perGroup 0 ([(0 : Int), 0, -1].zip [(2 : ℚ), 4, 9])).length :
            ℚ)) :=
  ⟨claim_mean_decomposition.1 3 2 (by norm_num),
   claim_mean_decomposition.2.2.1 Method.mapReduce [3] [0, 0, -1]
     [2, 4, 9] 2 5 1 (canonicalResult meanAgg [0, 0, -1] [(2 : ℚ), 4, 9] 2 5)
     (execute_eq_canonical Method.mapReduce meanAgg
       (by
         intro a b c
         simp only [meanAgg, Prod.mk.injEq]
         constructor <;> ring)
       [3] [0, 0, -1] [(2 : ℚ), 4, 9] 2 5 (fun _ => rfl) (by decide)
       (by decide) (fun h => nomatch h))
     (by decide) (by decide),
   claim_mean_decomposition.2.2.2 [3] [0, 0, -1] [2, 4, 9] 2 5 0
     (canonicalResult meanAgg [0, 0, -1] [(2 : ℚ), 4, 9] 2 5)
     (by decide) (by decide)
     (execute_eq_canonical Method.mapReduce meanAgg
       (by
         intro a b c
         simp only [meanAgg, Prod.mk.injEq]
         constructor <;> ring)
       [3] [0, 0, -1] [(2 : ℚ), 4, 9] 2 5 (fun _ => rfl) (by decide)
       (by decide) (fun h => nomatch h))
     (by decide) (by decide)⟩

end Blueprint

theorem mixedRadixEncode_lt {cs ns : List Nat}
    (h : List.Forall₂ (fun c n => c < n) cs ns) :
    mixedRadixEncode cs ns < ns.prod := by
  induction h with
  | nil => decide
  | @cons c n cs ns hcn _ ih =>
      show c * ns.prod + mixedRadixEncode cs ns < (n :: ns).prod
      rw [List.prod_cons]
      have h1 : c * ns.prod + mixedRadixEncode cs ns < (c + 1) * ns.prod := by
        rw [Nat.add_mul, Nat.one_mul]
        exact Nat.add_lt_add_left ih _
      exact lt_of_lt_of_le h1 (Nat.mul_le_mul_right _ hcn)

theorem mixedRadixDecode_encode {cs ns : List Nat}
    (h : List.Forall₂ (fun c n => c < n) cs ns) :
    mixedRadixDecode (mixedRadixEncode cs ns) ns = cs := by
  induction h with
  | nil => rfl
  | @cons c n cs ns hcn hrest ih =>
      have he : mixedRadixEncode cs ns < ns.prod := mixedRadixEncode_lt hrest
      have hP : 0 < ns.prod := Nat.lt_of_le_of_lt (Nat.zero_le _) he
      show (c * ns.prod + mixedRadixEncode cs ns) / ns.prod ::
          mixedRadixDecode ((c * ns.prod + mixedRadixEncode cs ns) % ns.prod)
            ns = c :: cs
      rw [Nat.add_comm (c * ns.prod) (mixedRadixEncode cs ns),
        Nat.mul_comm c ns.prod, Nat.add_mul_div_left _ _ hP,
        Nat.div_eq_of_lt he, Nat.zero_add, Nat.add_mul_mod_self_left,
        Nat.mod_eq_of_lt he, ih]

theorem mixedRadixEncode_decode (ns : List Nat) (hpos : ∀ n ∈ ns, 0 < n) :
    ∀ x, x < ns.prod → mixedRadixEncode (mixedRadixDecode x ns) ns = x := by
  induction ns with
  | nil =>
      intro x hx
      have hx0 : x = 0 := Nat.lt_one_iff.mp hx
      subst hx0
      rfl
  | cons n ns ih =>
      intro x hx
      have hP : 0 < ns.prod :=
        List.prod_pos (fun m hm => hpos m (List.mem_cons_of_mem n hm))
      show x / ns.prod * ns.prod +
          mixedRadixEncode (mixedRadixDecode (x % ns.prod) ns) ns = x
      rw [ih (fun m hm => hpos m (List.mem_cons_of_mem n hm)) (x % ns.prod)
        (Nat.mod_lt x hP), Nat.mul_comm (x / ns.prod) ns.prod]
      exact Nat.div_add_mod x ns.prod

theorem mixedRadixDecode_valid (ns : List Nat) (hpos : ∀ n ∈ ns, 0 < n) :
    ∀ x, x < ns.prod →
      List.Forall₂ (fun c n => c < n) (mixedRadixDecode x ns) ns := by
  induction ns with
  | nil => intro x _; exact List.Forall₂.nil
  | cons n ns ih =>
      intro x hx
      have hP : 0 < ns.prod :=
        List.prod_pos (fun m hm => hpos m (List.mem_cons_of_mem n hm))
      show List.Forall₂ (fun c n => c < n)
        (x / ns.prod :: mixedRadixDecode (x % ns.prod) ns) (n :: ns)
      refine List.Forall₂.cons ?_
        (ih (fun m hm => hpos m (List.mem_cons_of_mem n hm)) (x % ns.prod)
          (Nat.mod_lt x hP))
      rw [Nat.div_lt_iff_lt_mul hP]
      rw [List.prod_cons] at hx
      exact hx

/-- C3: The combined multi-key code is the row-major mixed-radix sum of the
per-key codes weighted by the products of the later group counts; on valid
per-key code tuples this encoding is a bijection onto [0, product of group
counts) and decoding by the strides recovers each per-key index exactly.
The two-key instance is the offset-codes formula code + t * nBins of
nD-bins.ipynb. -/
theorem claim_factorization_bijection :
    (∀ (cs ns : List Nat), List.Forall₂ (fun c n => c < n) cs ns →
      mixedRadixEncode cs ns < ns.prod ∧
        mixedRadixDecode (mixedRadixEncode cs ns) ns = cs) ∧
    (∀ (ns : List Nat), (∀ n ∈ ns, 0 < n) → ∀ x, x < ns.prod →
      List.Forall₂ (fun c n => c < n) (mixedRadixDecode x ns) ns ∧
        mixedRadixEncode (mixedRadixDecode x ns) ns = x) ∧
    (∀ (t c nb T : Nat), mixedRadixEncode [t, c] [T, nb] = t * nb + c) := by
  refine ⟨?_, ?_, ?_⟩
  · intro cs ns h
    exact ⟨mixedRadixEncode_lt h, mixedRadixDecode_encode h⟩
  · intro ns hpos x hx
    exact ⟨mixedRadixDecode_valid ns hpos x hx,
      mixedRadixEncode_decode ns hpos x hx⟩
  · intro t c nb T
    show t * ([nb].prod) + (c * List.prod [] + 0) = t * nb + c
    simp

/-- Witness for C3: codes (1, 2) with radices (3, 4) encode to 6 < 12 and
decode back to (1, 2); the combined code 11 decodes to (2, 3) and re-encodes
to 11; the two-key offset form gives 1 * 4 + 2 = 6. -/
theorem claim_factorization_bijection_witness :
    (mixedRadixEncode [1, 2] [3, 4] < List.prod [3, 4] ∧
      mixedRadixDecode (mixedRadixEncode [1, 2] [3, 4]) [3, 4] = [1, 2]) ∧
    (List.Forall₂ (fun c n => c < n) (mixedRadixDecode 11 [3, 4]) [3, 4] ∧
      mixedRadixEncode (mixedRadixDecode 11 [3, 4]) [3, 4] = 11) ∧
    mixedRadixEncode [1, 2] [9, 4] = 1 * 4 + 2 :=
  ⟨claim_factorization_bijection.1 [1, 2] [3, 4]
     (by decide),
   claim_factorization_bijection.2.1 [3, 4] (by decide) 11 (by decide),
   claim_factorization_bijection.2.2 1 2 4 9⟩

theorem length_splitChunks (chunks : List Nat) (xs : List α) :
    (splitChunks chunks xs).length = chunks.length := by
  induction chunks generalizing xs with
  | nil => rfl
  | cons s rest ih =>
      show (splitChunks rest (xs.drop s)).length + 1 = rest.length + 1
      rw [ih]

theorem le_foldl_max (labels : List Int) :
    ∀ acc : Nat, acc ≤ labels.foldl (fun a c => max a (c + 1).toNat) acc := by
  induction labels with
  | nil => intro acc; exact Nat.le_refl acc
  | cons c rest ih =>
      intro acc
      exact Nat.le_trans (Nat.le_max_left acc (c + 1).toNat)
        (ih (max acc (c + 1).toNat))

theorem mem_le_foldl_max (labels : List Int) :
    ∀ (acc : Nat) (x : Int), x ∈ labels →
      (x + 1).toNat ≤ labels.foldl (fun a c => max a (c + 1).toNat) acc := by
  induction labels with
  | nil => intro _ x hx; cases hx
  | cons c rest ih =>
      intro acc x hx
      rcases List.mem_cons.mp hx with h | h
      · subst h
        exact Nat.le_trans (Nat.le_max_right acc (x + 1).toNat)
          (le_foldl_max rest (max acc (x + 1).toNat))
      · exact ih (max acc (c + 1).toNat) x h

/-- Every nonnegative label is strictly below the inferred group count. -/
theorem toNat_lt_maxGroup {labels : List Int} {x : Int} (hx : x ∈ labels)
    (hnn : 0 ≤ x) : x.toNat < maxGroup labels := by
  have h := mem_le_foldl_max labels 0 x hx
  unfold maxGroup
  omega

/-- Membership in a group-membership set unpacked. -/
theorem mem_memberChunks_iff {g : Nat} {labels : List Int}
    {chunks : List Nat} {c : Nat} :
    c ∈ memberChunks g labels chunks ↔
      c < chunks.length ∧
        (g : Int) ∈ (splitChunks chunks labels).getD c [] := by
  unfold memberChunks
  rw [List.mem_filter, List.mem_range]
  simp

theorem countP_beq_eq_one {α : Type} [BEq α] [LawfulBEq α] {l : List α}
    {a : α} (hn : l.Nodup) (ha : a ∈ l) :
    l.countP (fun x => x == a) = 1 := by
  induction l with
  | nil => cases ha
  | cons b l ih =>
      rw [List.countP_cons]
      rcases List.mem_cons.mp ha with h | h
      · subst h
        have hz : l.countP (fun x => x == a) = 0 := by
          rw [List.countP_eq_zero]
          intro x hx
          have hne : x ≠ a := fun he => (List.nodup_cons.mp hn).1 (he ▸ hx)
          simp [hne]
        simp [hz]
      · have hba : (b == a) = false := by
          have hne : b ≠ a := by
            intro he
            exact (List.nodup_cons.mp hn).1 (he ▸ h)
          simp [hne]
        rw [ih (List.nodup_cons.mp hn).2 h, hba]
        simp

/-- A group that occurs in the labels is an occurring group. -/
theorem mem_occurringGroups {g : Nat} {labels : List Int}
    (hg : (g : Int) ∈ labels) : g ∈ occurringGroups labels := by
  unfold occurringGroups
  rw [List.mem_filter, List.mem_range]
  constructor
  · have := toNat_lt_maxGroup hg (Int.natCast_nonneg g)
    simpa using this
  · simpa using hg

/-- C2: For every (codes, chunk layout) pair given to the cohort planner,
every group code that occurs at least once in the codes array is a member of
exactly one cohort in the output, and the union over all cohorts of their
chunk-index sets contains every chunk index whose chunk holds at least one
non-sentinel code. -/
theorem claim_cohort_coverage (labels : List Int) (chunks : List Nat) :
    (∀ g : Nat, (g : Int) ∈ labels →
      ((findGroupCohorts labels chunks).2.countP
          (fun co => co.2.contains g)) = 1) ∧
    (∀ (c : Nat) (ch : List Int), (splitChunks chunks labels)[c]? = some ch →
      ∀ x ∈ ch, 0 ≤ x →
        ∃ co ∈ (findGroupCohorts labels chunks).2, c ∈ co.1) := by
  constructor
  · intro g hg
    have hgocc : g ∈ occurringGroups labels := mem_occurringGroups hg
    show ((cohortSignatures labels chunks).map
        (fun s =>
          (s, (occurringGroups labels).filter
            (fun g2 => memberChunks g2 labels chunks == s)))).countP
        (fun co => co.2.contains g) = 1
    rw [List.countP_map]
    have hcongr : (cohortSignatures labels chunks).countP
        ((fun co : List Nat × List Nat => co.2.contains g) ∘
          (fun s =>
            (s, (occurringGroups labels).filter
              (fun g2 => memberChunks g2 labels chunks == s)))) =
        (cohortSignatures labels chunks).countP
          (fun s => s == memberChunks g labels chunks) := by
      apply List.countP_congr
      intro s _
      simp only [Function.comp_apply]
      constructor
      · intro hc
        have hmem : g ∈ (occurringGroups labels).filter
            (fun g2 => memberChunks g2 labels chunks == s) := by
          simpa using hc
        have := (List.mem_filter.mp hmem).2
        have heq : memberChunks g labels chunks = s := by simpa using this
        simp [heq]
      · intro hs
        have heq : s = memberChunks g labels chunks := by simpa using hs
        subst heq
        have : g ∈ (occurringGroups labels).filter
            (fun g2 => memberChunks g2 labels chunks ==
              memberChunks g labels chunks) :=
          List.mem_filter.mpr ⟨hgocc, by simp⟩
        simpa using this
    rw [hcongr]
    exact countP_beq_eq_one (List.nodup_dedup _)
      (List.mem_dedup.mpr (List.mem_map.mpr ⟨g, hgocc, rfl⟩))
  · intro c ch hch x hx hnn
    have hlt : c < (splitChunks chunks labels).length :=
      (List.getElem?_eq_some.mp hch).1
    have hchmem : ch ∈ splitChunks chunks labels := by
      rcases List.getElem?_eq_some.mp hch with ⟨hl, hE⟩
      exact hE ▸ List.getElem_mem hl
    have hxlab : x ∈ labels :=
      (splitChunks_sublist chunks labels ch hchmem).mem hx
    have hgx : ((x.toNat : Nat) : Int) = x := Int.toNat_of_nonneg hnn
    have hgocc : x.toNat ∈ occurringGroups labels :=
      mem_occurringGroups (hgx ▸ hxlab)
    have hcmem : c ∈ memberChunks x.toNat labels chunks := by
      rw [mem_memberChunks_iff]
      refine ⟨by rwa [length_splitChunks] at hlt, ?_⟩
      have hgd : (splitChunks chunks labels).getD c [] = ch := by
        rw [List.getD_eq_getElem?_getD, hch]
        rfl
      rw [hgd, hgx]
      exact hx
    refine ⟨(memberChunks x.toNat labels chunks,
      (occurringGroups labels).filter
        (fun g2 => memberChunks g2 labels chunks ==
          memberChunks x.toNat labels chunks)), ?_, hcmem⟩
    show _ ∈ (cohortSignatures labels chunks).map _
    exact List.mem_map.mpr
      ⟨memberChunks x.toNat labels chunks,
       List.mem_dedup.mpr (List.mem_map.mpr ⟨x.toNat, hgocc, rfl⟩), rfl⟩

/-- Witness for C2: the spec example codes [0, 1, 0, 1, 2] with layout
[2, 3]: group 2 occurs and lies in exactly one cohort, and chunk 1, which
holds non-sentinel codes, is covered by some cohort (via its member code 2).
-/
theorem claim_cohort_coverage_witness :
    ((findGroupCohorts [0, 1, 0, 1, 2] [2, 3]).2.countP
        (fun co => co.2.contains 2)) = 1 ∧
      ∃ co ∈ (findGroupCohorts [0, 1, 0, 1, 2] [2, 3]).2, 1 ∈ co.1 :=
  ⟨(claim_cohort_coverage [0, 1, 0, 1, 2] [2, 3]).1 2 (by decide),
   (claim_cohort_coverage [0, 1, 0, 1, 2] [2, 3]).2 1 [0, 1, 2] (by decide)
     2 (by decide) (by decide)⟩

/-- C9: With method auto, the strategy selector chooses blockwise whenever
the blockwise condition holds (every chunk maps to exactly one cohort and
every cohort to exactly one chunk); otherwise it applies the heuristic on
the cost proxies cohort_count * avg_chunks_per_cohort (the total chunk
slots over all cohorts) and chunk_count * group_count, picking the cheaper
with ties going to cohorts. -/
theorem claim_strategy_selector_auto :
    (∀ (labels : List Int) (chunks : List Nat),
      blockwiseCond labels chunks = true →
      selectMethod none labels chunks = Except.ok Method.blockwise) ∧
    (∀ (labels : List Int) (chunks : List Nat),
      selectMethod none labels chunks =
        Except.ok (heuristicChoice (blockwiseCond labels chunks)
          (totalCohortChunks labels chunks) (mapReduceCost labels chunks))) ∧
    (∀ tc mr : Nat, tc ≤ mr →
      heuristicChoice false tc mr = Method.cohorts) ∧
    (∀ tc mr : Nat, mr < tc →
      heuristicChoice false tc mr = Method.mapReduce) := by
  refine ⟨?_, fun labels chunks => rfl, ?_, ?_⟩
  · intro labels chunks h
    show Except.ok (heuristicChoice (blockwiseCond labels chunks)
        (totalCohortChunks labels chunks) (mapReduceCost labels chunks)) = _
    rw [h]
    rfl
  · intro tc mr h
    unfold heuristicChoice
    rw [if_neg (by simp), if_pos h]
  · intro tc mr h
    unfold heuristicChoice
    rw [if_neg (by simp), if_neg (Nat.not_le.mpr h)]

/-- Witness for C9: the spec scenario of 3 groups with layout [1, 1, 1] and
one distinct group per chunk selects blockwise under auto; the heuristic
sends a cost tie (2, 2) to cohorts and a dearer cohort cost (5 vs 3) to
map-reduce. -/
theorem claim_strategy_selector_auto_witness :
    selectMethod none [0, 1, 2] [1, 1, 1] = Except.ok Method.blockwise ∧
      heuristicChoice false 2 2 = Method.cohorts ∧
      heuristicChoice false 5 3 = Method.mapReduce :=
  ⟨claim_strategy_selector_auto.1 [0, 1, 2] [1, 1, 1] (by decide),
   claim_strategy_selector_auto.2.2.1 2 2 (by decide),
   claim_strategy_selector_auto.2.2.2 5 3 (by decide)⟩

/-- C10: find_group_cohorts is deterministic in its inputs: element-wise
equal labels and equal chunk layouts give the same preferred method and the
same cohorts, independently of any other state, so a cohort plan may be
cached keyed by (labels, chunks) alone. -/
theorem claim_find_group_cohorts_deterministic
    (l1 l2 : List Int) (c1 c2 : List Nat)
    (hlen : l1.length = l2.length)
    (helem : ∀ (i : Nat) (h1 : i < l1.length) (h2 : i < l2.length),
      l1[i] = l2[i])
    (hclen : c1.length = c2.length)
    (hcelem : ∀ (i : Nat) (h1 : i < c1.length) (h2 : i < c2.length),
      c1[i] = c2[i]) :
    findGroupCohorts l1 c1 = findGroupCohorts l2 c2 := by
  have h1 : l1 = l2 := List.ext_getElem hlen helem
  have h2 : c1 = c2 := List.ext_getElem hclen hcelem
  rw [h1, h2]

/-- Witness for C10: two calls on element-wise equal labels [0, 1, 0] and
layouts [2, 1] return identical plans. -/
theorem claim_find_group_cohorts_deterministic_witness :
    findGroupCohorts [0, 1, 0] [2, 1] = findGroupCohorts [0, 1, 0] [2, 1] :=
  claim_find_group_cohorts_deterministic [0, 1, 0] [0, 1, 0] [2, 1] [2, 1]
    rfl (fun _ _ _ => rfl) rfl (fun _ _ _ => rfl)

theorem firstMatch_none {α : Type} {v : α} {preds : List (α → Bool)}
    (h : ∀ p ∈ preds, p v = false) : firstMatch v preds = none := by
  induction preds with
  | nil => rfl
  | cons p ps ih =>
      show (if p v then some 0 else (firstMatch v ps).map (· + 1)) = none
      rw [if_neg (by simp [h p (List.mem_cons_self p ps)]),
        ih (fun q hq => h q (List.mem_cons_of_mem p hq))]
      rfl

theorem firstMatch_some {α : Type} {v : α} (preds : List (α → Bool))
    (k : Nat) (hk : k < preds.length) (hmatch : preds.get ⟨k, hk⟩ v = true)
    (hfirst : ∀ j (hj : j < k),
      preds.get ⟨j, Nat.lt_trans hj hk⟩ v = false) :
    firstMatch v preds = some k := by
  induction preds generalizing k with
  | nil => exact absurd hk (Nat.not_lt_zero k)
  | cons p ps ih =>
      cases k with
      | zero =>
          have hm0 : p v = true := hmatch
          show (if p v then some 0 else (firstMatch v ps).map (· + 1)) =
            some 0
          rw [if_pos hm0]
      | succ k =>
          have hp : p v = false := hfirst 0 (Nat.succ_pos k)
          show (if p v then some 0 else (firstMatch v ps).map (· + 1)) =
            some (k + 1)
          rw [if_neg (by simp [hp])]
          have hk2 : k < ps.length := Nat.lt_of_succ_lt_succ hk
          rw [ih k hk2 hmatch
            (fun j hj => hfirst (j + 1) (Nat.succ_lt_succ hj))]
          rfl

/-- C7: With expected_groups supplied, factorize assigns each value the
position of its (first) matching entry in the enumeration as its code; a
value matching no entry gets the sentinel code -1 and is recorded in the
returned nan mask, and sentinel-coded positions belong to no group. -/
theorem claim_factorize_expected_groups {α : Type}
    (preds : List (α → Bool)) (values : List α) (i : Nat) (v : α)
    (hi : values[i]? = some v) :
    (∀ (k : Nat) (hk : k < preds.length),
      preds.get ⟨k, hk⟩ v = true →
      (∀ j (hj : j < k), preds.get ⟨j, Nat.lt_trans hj hk⟩ v = false) →
      (factorizeCodes preds values)[i]? = some ((k : Nat) : Int) ∧
        (nanMask preds values)[i]? = some false) ∧
    ((∀ p ∈ preds, p v = false) →
      (factorizeCodes preds values)[i]? = some (-1) ∧
        (nanMask preds values)[i]? = some true ∧
        ∀ g : Nat, i ∉ memberPositions g (factorizeCodes preds values)) := by
  constructor
  · intro k hk hm hf
    have hfm := firstMatch_some preds k hk hm hf
    constructor
    · unfold factorizeCodes
      rw [List.getElem?_map, hi]
      simp [hfm]
    · unfold nanMask
      rw [List.getElem?_map, hi]
      simp [hfm]
  · intro hnone
    have hfm := firstMatch_none hnone
    have hcode : (factorizeCodes preds values)[i]? = some (-1) := by
      unfold factorizeCodes
      rw [List.getElem?_map, hi]
      simp [hfm]
    refine ⟨hcode, ?_, ?_⟩
    · unfold nanMask
      rw [List.getElem?_map, hi]
      simp [hfm]
    · intro g hmem
      have hfilter := (List.mem_filter.mp hmem).2
      have hgd : (factorizeCodes preds values).getD i (-1) = -1 := by
        rw [List.getD_eq_getElem?_getD, hcode]
        rfl
      rw [hgd] at hfilter
      have hq : (-1 : Int) = (g : Int) := by simpa using hfilter
      omega

/-- Witness for C7: with the enumeration (is 20?, is 10?) over values
[10, 20, 30]: value 20 at position 1 matches entry 0 and gets code 0 with a
clear nan mask; value 30 at position 2 matches nothing, gets the sentinel
-1, is flagged in the nan mask, and belongs to no group. -/
theorem claim_factorize_expected_groups_witness :
    ((factorizeCodes [fun v => v == (20 : Int), fun v => v == 10]
      [10, 20, 30])[1]? = some ((0 : Nat) : Int) ∧
      (nanMask [fun v => v == (20 : Int), fun v => v == 10]
        [10, 20, 30])[1]? = some false) ∧
    ((factorizeCodes [fun v => v == (20 : Int), fun v => v == 10]
      [10, 20, 30])[2]? = some (-1) ∧
      (nanMask [fun v => v == (20 : Int), fun v => v == 10]
        [10, 20, 30])[2]? = some true ∧
      ∀ g : Nat, 2 ∉ memberPositions g
        (factorizeCodes [fun v => v == (20 : Int), fun v => v == 10]
          [10, 20, 30])) :=
  ⟨(claim_factorize_expected_groups
      [fun v => v == (20 : Int), fun v => v == 10] [10, 20, 30] 1 20
      (by decide)).1 0 (by decide) (by decide)
      (fun j hj => absurd hj (Nat.not_lt_zero j)),
   (claim_factorize_expected_groups
      [fun v => v == (20 : Int), fun v => v == 10] [10, 20, 30] 2 30
      (by decide)).2 (by decide)⟩

/-- C8: Every primitive reduction kernel call with (codes, values, group
count, fill value) returns an array with exactly group_count entries, one
value per group code: the fill value for an empty group, the op applied to
the members of the group otherwise, and the entry for a group depends only
on the member list of that group. -/
theorem claim_kernel_interface {V : Type} (op : List V → V)
    (codes : List Int) (values : List V) (size : Nat) (fv : V) :
    (groupedReduce op codes values size fv).length = size ∧
    (∀ g, g < size → perGroup g (codes.zip values) = [] →
      (groupedReduce op codes values size fv)[g]? = some fv) ∧
    (∀ g, g < size → perGroup g (codes.zip values) ≠ [] →
      (groupedReduce op codes values size fv)[g]? =
        some (op (perGroup g (codes.zip values)))) ∧
    (∀ g, g < size → ∀ (codes2 : List Int) (values2 : List V),
      perGroup g (codes.zip values) = perGroup g (codes2.zip values2) →
      (groupedReduce op codes values size fv)[g]? =
        (groupedReduce op codes2 values2 size fv)[g]?) := by
  refine ⟨?_, ?_, ?_, ?_⟩
  · unfold groupedReduce
    rw [List.length_map, List.length_range]
  · intro g hg hempty
    unfold groupedReduce
    rw [List.getElem?_map, List.getElem?_range hg]
    simp [hempty]
  · intro g hg hne
    unfold groupedReduce
    rw [List.getElem?_map, List.getElem?_range hg]
    have : (perGroup g (codes.zip values)).isEmpty = false := by
      rcases h : perGroup g (codes.zip values) with _ | ⟨a, rest⟩
      · exact absurd h hne
      · rfl
    simp [this]
  · intro g hg codes2 values2 hsame
    unfold groupedReduce
    rw [List.getElem?_map, List.getElem?_range hg,
      List.getElem?_map, List.getElem?_range hg]
    simp only [Option.map_some']
    rw [hsame]

/-- Witness for C8: summing with codes [0, 1, 0] over values [1, 2, 3] and
group count 3: the output has 3 entries; group 2 is empty and gets the fill
value 99; group 0 gets 1 + 3; and the entry of group 0 is unchanged when
the other positions change. -/
theorem claim_kernel_interface_witness :
    (groupedReduce (fun l => l.sum) [0, 1, 0] [1, 2, 3] 3
      (99 : Int)).length = 3 ∧
    (groupedReduce (fun l => l.sum) [0, 1, 0] [1, 2, 3] 3 (99 : Int))[2]? =
      some 99 ∧
    (groupedReduce (fun l => l.sum) [0, 1, 0] [1, 2, 3] 3 (99 : Int))[0]? =
      some (List.sum (perGroup 0 ([(0 : Int), 1, 0].zip [(1 : Int), 2, 3])))
      ∧
    (groupedReduce (fun l => l.sum) [0, 1, 0] [1, 2, 3] 3 (99 : Int))[0]? =
      (groupedReduce (fun l => l.sum) [0, 9, 0] [1, 7, 3] 3
        (99 : Int))[0]? :=
  ⟨(claim_kernel_interface (fun l => l.sum) [0, 1, 0] [1, 2, 3] 3 99).1,
   (claim_kernel_interface (fun l => l.sum) [0, 1, 0] [1, 2, 3] 3 99).2.1 2
     (by decide) (by decide),
   (claim_kernel_interface (fun l => l.sum) [0, 1, 0] [1, 2, 3] 3
     99).2.2.1 0 (by decide) (by decide),
   (claim_kernel_interface (fun l => l.sum) [0, 1, 0] [1, 2, 3] 3
     99).2.2.2 0 (by decide) [0, 9, 0] [1, 7, 3] (by decide)⟩

end Flox
